import Mathlib

/-!
Verification of the xsc-patcher core: the `.xsc` script parser
(`XscParserCore.parseString` in `src/xsc-parser-core.ts`) and the
buffer-patching engine (`Patcher.applyToBuffer` / `PatcherCore.applyToBuffer`
in `src/patcher.ts`).

Buffers and byte sequences are modelled as `List Nat`, script text as
`List Char`.  JavaScript string operations used by the parser
(`String.prototype.trim`, `split(/\r?\n/)`, `split(' BY ')`,
`replace(/ /g, '')`, `Number.parseInt(s, 16)`) are embedded explicitly.
-/

namespace XscPatcher

/-- JavaScript whitespace (`WhiteSpace` and `LineTerminator` code points, as
used by `String.prototype.trim` and `parseInt`), restricted to the common
code points. -/
def isJsWhitespace (c : Char) : Bool :=
  c = ' ' || c = '\t' || c = '\n' || c = '\r' ||
  c = Char.ofNat 0x0b || c = Char.ofNat 0x0c || c = Char.ofNat 0xa0 ||
  c = Char.ofNat 0xfeff || c = Char.ofNat 0x2028 || c = Char.ofNat 0x2029

/-- Hex digit test, case-insensitive (as in JS `parseInt(_, 16)`). -/
def isHexDigit (c : Char) : Bool :=
  ('0' ≤ c && c ≤ '9') || ('a' ≤ c && c ≤ 'f') || ('A' ≤ c && c ≤ 'F')

/-- Numeric value of a hex digit. -/
def hexDigitVal (c : Char) : Nat :=
  if '0' ≤ c && c ≤ '9' then c.toNat - '0'.toNat
  else if 'a' ≤ c && c ≤ 'f' then c.toNat - 'a'.toNat + 10
  else if 'A' ≤ c && c ≤ 'F' then c.toNat - 'A'.toNat + 10
  else 0

/-- Accumulate the value of the longest hex-digit prefix. -/
def takeHexVal (acc : Nat) : List Char → Nat
  | [] => acc
  | c :: rest => if isHexDigit c then takeHexVal (acc * 16 + hexDigitVal c) rest else acc

/-- Whether the list starts with a hex digit. -/
def hasHexDigitHead : List Char → Bool
  | [] => false
  | c :: _ => isHexDigit c

/-- JS `Number.parseInt(s, 16)`: skip leading whitespace, optional sign,
optional `0x`/`0X` prefix, then the longest hex-digit prefix; `none` is NaN
(no digits). -/
def parseIntHex (s : List Char) : Option Int :=
  let s1 := s.dropWhile isJsWhitespace
  let signAndRest : Int × List Char :=
    match s1 with
    | '-' :: rest => (-1, rest)
    | '+' :: rest => (1, rest)
    | _ => (1, s1)
  let s3 : List Char :=
    match signAndRest.2 with
    | '0' :: 'x' :: rest => rest
    | '0' :: 'X' :: rest => rest
    | _ => signAndRest.2
  if hasHexDigitHead s3 then some (signAndRest.1 * (takeHexVal 0 s3)) else none

/-- Storing a JS number into a `Uint8Array` element (`ToUint8`): NaN becomes
0, otherwise the integer is taken modulo 256. -/
def toUint8 (v : Option Int) : Nat :=
  match v with
  | none => 0
  | some n => (n % 256).toNat

/-- `bytes[i] = Number.parseInt(normalized.slice(i*2, i*2+2), 16)` for one
two-character slice. -/
def parseHexPair (c1 c2 : Char) : Nat :=
  toUint8 (parseIntHex [c1, c2])

/-- JS `s.replace(/ /g, '')`: remove every space (U+20) character. -/
def removeSpaces (s : List Char) : List Char :=
  s.filter (fun c => c ≠ ' ')

/-- Decode consecutive two-character slices (the loop body of `hexToBytes`). -/
def decodePairs : List Char → List Nat
  | c1 :: c2 :: rest => parseHexPair c1 c2 :: decodePairs rest
  | _ => []

/-- `hexToBytes` from `src/xsc-parser-core.ts`: remove spaces, throw
(`none`) on odd length, else decode each two-character slice with
`Number.parseInt(_, 16)`. -/
def hexToBytes (hex : List Char) : Option (List Nat) :=
  let normalized := removeSpaces hex
  if normalized.length % 2 ≠ 0 then none
  else some (decodePairs normalized)

/-- JS `String.prototype.trim`, left part. -/
def jsTrimLeft (s : List Char) : List Char :=
  s.dropWhile isJsWhitespace

/-- JS `String.prototype.trim`, right part. -/
def jsTrimRight (s : List Char) : List Char :=
  (s.reverse.dropWhile isJsWhitespace).reverse

/-- JS `String.prototype.trim`. -/
def jsTrim (s : List Char) : List Char :=
  jsTrimRight (jsTrimLeft s)

/-- JS `content.split(/\r?\n/)`: split on `\n`, consuming one `\r`
immediately before it. -/
def splitLines : List Char → List (List Char)
  | [] => [[]]
  | '\r' :: '\n' :: rest => [] :: splitLines rest
  | '\n' :: rest => [] :: splitLines rest
  | c :: rest =>
    match splitLines rest with
    | [] => [[c]]
    | l :: ls => (c :: l) :: ls

/-- `pat.isPrefixOf s` for character lists (JS `String.prototype.startsWith`
specialised to a literal pattern). -/
def startsWithChars : List Char → List Char → Bool
  | [], _ => true
  | _ :: _, [] => false
  | p :: ps, c :: cs => p == c && startsWithChars ps cs

/-- Worker for `splitOnSep`: `skip > 0` means the scanner is inside an
already-recognised separator occurrence and still has to consume `skip`
characters. -/
def splitGo (sep : List Char) : Nat → List Char → List (List Char)
  | _ + 1, [] => [[]]
  | skip + 1, _ :: rest => splitGo sep skip rest
  | 0, [] => [[]]
  | 0, c :: rest =>
    if sep ≠ [] && startsWithChars sep (c :: rest) then
      [] :: splitGo sep (sep.length - 1) rest
    else
      match splitGo sep 0 rest with
      | [] => [[c]]
      | l :: ls => (c :: l) :: ls

/-- JS `s.split(sep)` for a non-empty literal separator: split at leftmost
non-overlapping occurrences. -/
def splitOnSep (sep : List Char) (s : List Char) : List (List Char) :=
  splitGo sep 0 s

/-- A parsed `{find, replace, lineNumber}` rule (`ReplacementRule` in
`src/types.ts`). -/
structure ReplacementRule where
  find : List Nat
  replace : List Nat
  lineNumber : Nat
deriving DecidableEq, Repr

/-- One iteration of the `parseString` line loop of
`src/xsc-parser-core.ts`: trim, require the `REPLACEALL ` prefix, split on
the literal ` BY `, require exactly two parts, strip spaces, require
non-empty hex strings, decode, require equal byte lengths. `none` means the
line is skipped (with a console warning in the source). -/
def parseLine (lineNumber : Nat) (line : List Char) : Option ReplacementRule :=
  let trimmedLine := jsTrim line
  if startsWithChars "REPLACEALL ".toList trimmedLine then
    match splitOnSep " BY ".toList (trimmedLine.drop "REPLACEALL ".toList.length) with
    | [p0, p1] =>
      let findHex := removeSpaces p0
      let replaceHex := removeSpaces p1
      if findHex = [] || replaceHex = [] then none
      else
        match hexToBytes findHex, hexToBytes replaceHex with
        | some findBytes, some replaceBytes =>
          if findBytes.length = replaceBytes.length then
            some ⟨findBytes, replaceBytes, lineNumber⟩
          else none
        | _, _ => none
    | _ => none
  else none

/-- The indexed loop over all lines (`for (const [index, line] of
lines.entries())`, with `lineNumber = index + 1`). -/
def parseLines : Nat → List (List Char) → List ReplacementRule
  | _, [] => []
  | n, l :: ls => (parseLine n l).toList ++ parseLines (n + 1) ls

/-- `XscParserCore.parseString` from `src/xsc-parser-core.ts`. -/
def parseString (content : List Char) : List ReplacementRule :=
  parseLines 1 (splitLines content)

/-- The inner comparison loop of `findSubarray` in the engine
(`for j ...: haystack[i + j] !== needle[j]`): does `needle` occur at the
head of the given haystack suffix? A `true` answer implies the needle fits
inside the remaining buffer, mirroring the `i <= maxStart` loop bound. -/
def matchesHere : List Nat → List Nat → Bool
  | [], _ => true
  | _ :: _, [] => false
  | n :: ns, h :: hs => n == h && matchesHere ns hs

/-- The outer scanning loop of `findSubarray`: try indices `i, i + 1, ...`
while walking down the corresponding haystack suffix. -/
def findSubarrayGo (needle : List Nat) : Nat → List Nat → Option Nat
  | _, [] => none
  | i, h :: hs =>
    if matchesHere needle (h :: hs) then some i else findSubarrayGo needle (i + 1) hs

/-- `findSubarray` from the engine: `-1` (here `none`) for an empty needle,
else the least match index at or after `fromIndex` (`Buffer.indexOf(find,
startIndex)` in `src/patcher.ts` behaves identically for non-empty
needles). -/
def findSubarray (haystack needle : List Nat) (fromIndex : Nat) : Option Nat :=
  if needle.length = 0 then none
  else findSubarrayGo needle fromIndex (haystack.drop fromIndex)

/-- In-place overwrite `replace.copy(targetBuffer, i)` /
`targetBuffer.set(replace, i)`: bytes `[i, i + replace.length)` are
overwritten (truncated at the end of the buffer, which never resizes). -/
def copyInto (buf : List Nat) (i : Nat) (repl : List Nat) : List Nat :=
  buf.take i ++ repl.take (buf.length - i) ++ buf.drop (i + repl.length)

/-- The per-rule `while ((foundIndex = findSubarray(...)) !== -1)` loop of
`applyToBuffer`: repeatedly find the next occurrence from the cursor,
overwrite it, and move the cursor to `foundIndex + replace.length`.
Returns the updated buffer and the list of replaced offsets (whose length
is the source's `currentReplacedInPair` counter). The `fuel` argument makes
the recursion well-founded in the model; `buf.length + 1` steps are enough
whenever `find` is non-empty and `replace` has its length (the parser
invariant), see the termination theorem. -/
def applyRuleFuel (find repl : List Nat) : Nat → List Nat → Nat → List Nat × List Nat
  | 0, buf, _ => (buf, [])
  | fuel + 1, buf, startIndex =>
    match findSubarray buf find startIndex with
    | none => (buf, [])
    | some foundIndex =>
      let next := applyRuleFuel find repl fuel (copyInto buf foundIndex repl)
        (foundIndex + repl.length)
      (next.1, foundIndex :: next.2)

/-- One rule's full pass over the buffer, starting at cursor 0. -/
def applyRule (buf : List Nat) (r : ReplacementRule) : List Nat × List Nat :=
  applyRuleFuel r.find r.replace (buf.length + 1) buf 0

/-- The `replacements.forEach` loop of `applyToBuffer`: apply each rule in
order to the buffer as modified by the earlier rules. Alongside the final
buffer it returns, per rule, the pair (replace length, replaced offsets) —
the engine's per-rule diagnostics. -/
def applyRulesTrace : List Nat → List ReplacementRule → List Nat × List (Nat × List Nat)
  | buf, [] => (buf, [])
  | buf, r :: rs =>
    let step := applyRule buf r
    let rest := applyRulesTrace step.1 rs
    (rest.1, (r.replace.length, step.2) :: rest.2)

/-- `Patcher.applyToBuffer` / `PatcherCore.applyToBuffer`: empty rule list
returns the buffer untouched; otherwise run all rules and return `none`
(the fatal signal, `null` in the source) if the buffer length changed,
else the patched buffer. -/
def applyToBuffer (targetBuffer : List Nat) (replacements : List ReplacementRule) :
    Option (List Nat) :=
  if replacements.isEmpty then some targetBuffer
  else
    let result := (applyRulesTrace targetBuffer replacements).1
    if result.length ≠ targetBuffer.length then none else some result

/-- Total number of replacements across all rules (the source's
`totalReplacedCount`). -/
def totalReplacedCount (buf : List Nat) (rules : List ReplacementRule) : Nat :=
  ((applyRulesTrace buf rules).2.map (fun w => w.2.length)).sum

/-- Model of `Patcher.applyToFile`: the file system is reduced to the
optional current contents of the target path (`none` = missing/unreadable).
The function returns the success boolean together with the on-disk contents
after the call: empty rule list returns `true` without touching the file;
a missing file fails; otherwise the file is read, `applyToBuffer` runs, a
`null` (fatal) result leaves the file unwritten and returns `false`, and
only a successful patch is written back. -/
def applyToFile (disk : Option (List Nat)) (replacements : List ReplacementRule) :
    Bool × Option (List Nat) :=
  if replacements.isEmpty then (true, disk)
  else
    match disk with
    | none => (false, none)
    | some contentBuffer =>
      match applyToBuffer contentBuffer replacements with
      | none => (false, some contentBuffer)
      | some patched => (true, some patched)

/-- The rule loop again, but with an externally supplied iteration budget
per rule, used to state that the engine's scan terminates: any budget at
least `buf.length + 1` gives the same answer. -/
def applyRulesGas (gas : Nat) : List Nat → List ReplacementRule → List Nat
  | buf, [] => buf
  | buf, r :: rs => applyRulesGas gas (applyRuleFuel r.find r.replace gas buf 0).1 rs

/-- `nonOverlapFrom w lo offsets`: the offsets are each at least `lo` and
pairwise at least `w` apart, i.e. the width-`w` replacement intervals are
non-overlapping and ordered left to right. -/
def nonOverlapFrom (w : Nat) : Nat → List Nat → Bool
  | _, [] => true
  | lo, o :: os => decide (lo ≤ o) && nonOverlapFrom w (o + w) os

/-! ### Engine lemmas -/

theorem copyInto_length (buf : List Nat) (i : Nat) (repl : List Nat) :
    (copyInto buf i repl).length = buf.length := by
  simp only [copyInto, List.length_append, List.length_take, List.length_drop]
  omega

theorem applyRuleFuel_length (find repl : List Nat) (fuel : Nat) :
    ∀ (buf : List Nat) (start : Nat),
      ((applyRuleFuel find repl fuel buf start).1).length = buf.length := by
  induction fuel with
  | zero => intro buf start; rfl
  | succ n ih =>
    intro buf start
    cases h : findSubarray buf find start with
    | none => simp [applyRuleFuel, h]
    | some i =>
      simp only [applyRuleFuel, h]
      simpa [copyInto_length] using ih (copyInto buf i repl) (i + repl.length)

theorem applyRulesTrace_length (rules : List ReplacementRule) :
    ∀ buf : List Nat, ((applyRulesTrace buf rules).1).length = buf.length := by
  induction rules with
  | nil => intro buf; rfl
  | cons r rs ih =>
    intro buf
    simp only [applyRulesTrace]
    rw [ih]
    exact applyRuleFuel_length _ _ _ _ _

theorem applyToBuffer_eq_some (buf : List Nat) (rules : List ReplacementRule) :
    applyToBuffer buf rules = some ((applyRulesTrace buf rules).1) := by
  cases rules with
  | nil => rfl
  | cons r rs => simp [applyToBuffer, applyRulesTrace_length]

theorem matchesHere_length {needle s : List Nat} (h : matchesHere needle s = true) :
    needle.length ≤ s.length := by
  induction needle generalizing s with
  | nil => simp
  | cons n ns ih =>
    cases s with
    | nil => simp [matchesHere] at h
    | cons a as =>
      simp only [matchesHere, Bool.and_eq_true] at h
      have := ih h.2
      simp only [List.length_cons]
      omega

theorem findSubarrayGo_some {needle : List Nat} :
    ∀ {s : List Nat} {i j : Nat}, findSubarrayGo needle i s = some j →
      i ≤ j ∧ matchesHere needle (s.drop (j - i)) = true := by
  intro s
  induction s with
  | nil => intro i j h; simp [findSubarrayGo] at h
  | cons a as ih =>
    intro i j h
    simp only [findSubarrayGo] at h
    by_cases hm : matchesHere needle (a :: as) = true
    · rw [if_pos hm] at h
      cases h
      simpa using hm
    · rw [if_neg hm] at h
      obtain ⟨h1, h2⟩ := ih h
      refine ⟨by omega, ?_⟩
      have hj : j - i = (j - (i + 1)) + 1 := by omega
      rw [hj]
      simpa using h2

theorem findSubarray_some {buf needle : List Nat} {fromIndex j : Nat}
    (h : findSubarray buf needle fromIndex = some j) :
    fromIndex ≤ j ∧ needle ≠ [] ∧ matchesHere needle (buf.drop j) = true := by
  unfold findSubarray at h
  split at h
  · exact absurd h (by simp)
  · next hn =>
    obtain ⟨h1, h2⟩ := findSubarrayGo_some h
    refine ⟨h1, fun hcon => hn (by simp [hcon]), ?_⟩
    rw [List.drop_drop] at h2
    have heq : fromIndex + (j - fromIndex) = j := by omega
    rwa [heq] at h2

theorem findSubarray_some_bound {buf needle : List Nat} {fromIndex j : Nat}
    (h : findSubarray buf needle fromIndex = some j) :
    j + needle.length ≤ buf.length := by
  obtain ⟨_, hne, hm⟩ := findSubarray_some h
  have h1 := matchesHere_length hm
  have h2 : 1 ≤ needle.length := List.length_pos.mpr hne
  simp only [List.length_drop] at h1
  omega

theorem findSubarrayGo_none_of_index {needle : List Nat} :
    ∀ {s : List Nat} {i i' : Nat}, findSubarrayGo needle i s = none →
      findSubarrayGo needle i' s = none := by
  intro s
  induction s with
  | nil => intro i i' _; rfl
  | cons a as ih =>
    intro i i' h
    simp only [findSubarrayGo] at h ⊢
    split at h
    · exact absurd h (by simp)
    · next hm =>
      rw [if_neg hm]
      exact ih h

theorem findSubarrayGo_none_drop {needle : List Nat} :
    ∀ {s : List Nat} {i : Nat}, findSubarrayGo needle i s = none →
      ∀ (d i' : Nat), findSubarrayGo needle i' (s.drop d) = none := by
  intro s
  induction s with
  | nil => intro i _ d i'; simp [findSubarrayGo]
  | cons a as ih =>
    intro i h d i'
    cases d with
    | zero => simpa using findSubarrayGo_none_of_index h
    | succ d =>
      simp only [findSubarrayGo] at h
      split at h
      · exact absurd h (by simp)
      · exact ih h d i'

theorem findSubarray_none_mono {buf needle : List Nat}
    (h : findSubarray buf needle 0 = none) (start : Nat) :
    findSubarray buf needle start = none := by
  unfold findSubarray at h ⊢
  split
  · rfl
  · next hn =>
    rw [if_neg hn] at h
    simp only [List.drop_zero] at h
    exact findSubarrayGo_none_drop h start start

theorem findSubarray_none_of_ge {buf needle : List Nat} {start : Nat}
    (h : buf.length ≤ start) : findSubarray buf needle start = none := by
  unfold findSubarray
  split
  · rfl
  · rw [List.drop_eq_nil_of_le h]
    rfl

theorem applyRuleFuel_of_none {find repl : List Nat} {buf : List Nat} {start : Nat}
    (fuel : Nat) (h : findSubarray buf find start = none) :
    applyRuleFuel find repl fuel buf start = (buf, []) := by
  cases fuel with
  | zero => rfl
  | succ n => simp [applyRuleFuel, h]

theorem applyRuleFuel_congr {find repl : List Nat} (hne : find ≠ [])
    (hlen : repl.length = find.length) :
    ∀ (n m : Nat) (buf : List Nat) (start : Nat),
      buf.length + 1 - start ≤ n → n ≤ m →
      applyRuleFuel find repl n buf start = applyRuleFuel find repl m buf start := by
  intro n
  induction n with
  | zero =>
    intro m buf start h1 _
    have hnone : findSubarray buf find start = none := findSubarray_none_of_ge (by omega)
    rw [applyRuleFuel_of_none _ hnone, applyRuleFuel_of_none _ hnone]
  | succ n ih =>
    intro m buf start h1 h2
    cases m with
    | zero => omega
    | succ m =>
      cases h : findSubarray buf find start with
      | none => rw [applyRuleFuel_of_none _ h, applyRuleFuel_of_none _ h]
      | some i =>
        obtain ⟨hle, _, _⟩ := findSubarray_some h
        have hbound := findSubarray_some_bound h
        have hfind1 : 1 ≤ find.length := List.length_pos.mpr hne
        have hrec := ih m (copyInto buf i repl) (i + repl.length)
          (by rw [copyInto_length]; omega) (by omega)
        simp only [applyRuleFuel, h]
        rw [hrec]

theorem applyRulesGas_eq (extra : Nat) :
    ∀ (rules : List ReplacementRule) (buf : List Nat),
      (∀ r ∈ rules, r.find ≠ [] ∧ r.find.length = r.replace.length) →
      applyRulesGas (buf.length + 1 + extra) buf rules = (applyRulesTrace buf rules).1 := by
  intro rules
  induction rules with
  | nil => intro buf _; rfl
  | cons r rs ih =>
    intro buf h
    obtain ⟨hne, hlen⟩ := h r (by simp)
    have hcongr := applyRuleFuel_congr hne hlen.symm (buf.length + 1)
      (buf.length + 1 + extra) buf 0 (by omega) (by omega)
    simp only [applyRulesGas, applyRulesTrace, ← hcongr]
    have hlen1 := applyRuleFuel_length r.find r.replace (buf.length + 1) buf 0
    rw [show applyRuleFuel r.find r.replace (buf.length + 1) buf 0 = applyRule buf r from rfl]
    rw [← hlen1]
    exact ih (applyRule buf r).1 (fun x hx => h x (by simp [hx]))

theorem nonOverlapFrom_applyRuleFuel (find repl : List Nat) (fuel : Nat) :
    ∀ (buf : List Nat) (start : Nat),
      nonOverlapFrom repl.length start (applyRuleFuel find repl fuel buf start).2 = true := by
  induction fuel with
  | zero => intro buf start; rfl
  | succ n ih =>
    intro buf start
    cases h : findSubarray buf find start with
    | none => simp [applyRuleFuel, h, nonOverlapFrom]
    | some i =>
      obtain ⟨hle, _, _⟩ := findSubarray_some h
      simp only [applyRuleFuel, h, nonOverlapFrom, Bool.and_eq_true, decide_eq_true_eq]
      exact ⟨hle, ih (copyInto buf i repl) (i + repl.length)⟩

theorem copyInto_getElem? (buf : List Nat) (i : Nat) (repl : List Nat) (j : Nat)
    (h : j < i ∨ i + repl.length ≤ j) :
    (copyInto buf i repl)[j]? = buf[j]? := by
  by_cases hj : j < buf.length
  · cases h with
    | inl hlt =>
      unfold copyInto
      rw [List.getElem?_append_left
          (by simp only [List.length_append, List.length_take]; omega),
        List.getElem?_append_left (by simp only [List.length_take]; omega)]
      exact List.getElem?_take_of_lt hlt
    | inr hge =>
      unfold copyInto
      rw [List.getElem?_append_right
          (by simp only [List.length_append, List.length_take]; omega),
        List.getElem?_drop]
      have hx : i + repl.length +
          (j - (List.take i buf ++ List.take (buf.length - i) repl).length) = j := by
        simp only [List.length_append, List.length_take]
        omega
      rw [hx]
  · have h1 : (copyInto buf i repl)[j]? = none :=
      List.getElem?_eq_none (by rw [copyInto_length]; omega)
    have h2 : buf[j]? = none := List.getElem?_eq_none (by omega)
    rw [h1, h2]

theorem applyRuleFuel_frame (find repl : List Nat) (fuel : Nat) :
    ∀ (buf : List Nat) (start j : Nat),
      (∀ o ∈ (applyRuleFuel find repl fuel buf start).2, ¬(o ≤ j ∧ j < o + repl.length)) →
      ((applyRuleFuel find repl fuel buf start).1)[j]? = buf[j]? := by
  induction fuel with
  | zero => intro buf start j _; rfl
  | succ n ih =>
    intro buf start j hout
    cases h : findSubarray buf find start with
    | none => simp [applyRuleFuel, h]
    | some i =>
      simp only [applyRuleFuel, h] at hout ⊢
      have hi := hout i (by simp)
      have htail : ∀ o ∈ (applyRuleFuel find repl n (copyInto buf i repl)
          (i + repl.length)).2, ¬(o ≤ j ∧ j < o + repl.length) :=
        fun o ho => hout o (by simp [ho])
      rw [ih (copyInto buf i repl) (i + repl.length) j htail]
      exact copyInto_getElem? buf i repl j (by omega)

theorem applyRulesTrace_frame :
    ∀ (rules : List ReplacementRule) (buf : List Nat) (j : Nat),
      (∀ w ∈ (applyRulesTrace buf rules).2, ∀ o ∈ w.2, ¬(o ≤ j ∧ j < o + w.1)) →
      ((applyRulesTrace buf rules).1)[j]? = buf[j]? := by
  intro rules
  induction rules with
  | nil => intro buf j _; rfl
  | cons r rs ih =>
    intro buf j hout
    simp only [applyRulesTrace] at hout ⊢
    have hhead := hout (r.replace.length, (applyRule buf r).2) (by simp)
    have htail : ∀ w ∈ (applyRulesTrace (applyRule buf r).1 rs).2,
        ∀ o ∈ w.2, ¬(o ≤ j ∧ j < o + w.1) :=
      fun w hw => hout w (by simp [hw])
    rw [ih (applyRule buf r).1 j htail]
    exact applyRuleFuel_frame r.find r.replace (buf.length + 1) buf 0 j hhead

theorem applyRulesTrace_no_match :
    ∀ (rules : List ReplacementRule) (buf : List Nat),
      (∀ r ∈ rules, findSubarray buf r.find 0 = none) →
      applyRulesTrace buf rules = (buf, rules.map (fun r => (r.replace.length, []))) := by
  intro rules
  induction rules with
  | nil => intro buf _; rfl
  | cons r rs ih =>
    intro buf h
    have hr : applyRule buf r = (buf, []) :=
      applyRuleFuel_of_none _ (h r (by simp))
    simp only [applyRulesTrace, hr, List.map_cons]
    rw [ih buf (fun x hx => h x (by simp [hx]))]

/-! ### Parser lemmas -/

theorem parseLine_some {n : Nat} {l : List Char} {r : ReplacementRule}
    (h : parseLine n l = some r) :
    r.find.length = r.replace.length ∧ r.lineNumber = n := by
  simp only [parseLine] at h
  split at h
  · split at h
    · split at h
      · exact absurd h (by simp)
      · split at h
        · next findBytes replaceBytes _ _ =>
          split at h
          · next hlen =>
            cases h
            exact ⟨hlen, rfl⟩
          · exact absurd h (by simp)
        · exact absurd h (by simp)
    · exact absurd h (by simp)
  · exact absurd h (by simp)

theorem mem_parseLines {r : ReplacementRule} :
    ∀ {n : Nat} {ls : List (List Char)}, r ∈ parseLines n ls →
      r.find.length = r.replace.length := by
  intro n ls
  induction ls generalizing n with
  | nil => intro h; simp [parseLines] at h
  | cons l ls ih =>
    intro h
    simp only [parseLines, List.mem_append] at h
    cases h with
    | inl h =>
      cases hp : parseLine n l with
      | none => simp [hp] at h
      | some r0 =>
        simp only [hp, Option.toList_some, List.mem_singleton] at h
        subst h
        exact (parseLine_some hp).1
    | inr h => exact ih h

theorem parseLines_length_le : ∀ (n : Nat) (ls : List (List Char)),
    (parseLines n ls).length ≤ ls.length := by
  intro n ls
  induction ls generalizing n with
  | nil => simp [parseLines]
  | cons l ls ih =>
    simp only [parseLines, List.length_append, List.length_cons]
    have h1 : (parseLine n l).toList.length ≤ 1 := by
      cases parseLine n l <;> simp
    have h2 := ih (n + 1)
    omega

theorem parseLines_append (bs : List (List Char)) :
    ∀ (n : Nat) (as : List (List Char)),
      parseLines n (as ++ bs) = parseLines n as ++ parseLines (n + as.length) bs := by
  intro n as
  induction as generalizing n with
  | nil => simp [parseLines]
  | cons a as ih =>
    have h1 : parseLines n ((a :: as) ++ bs) =
        (parseLine n a).toList ++ parseLines (n + 1) (as ++ bs) := rfl
    have h2 : parseLines n (a :: as) = (parseLine n a).toList ++ parseLines (n + 1) as := rfl
    rw [h1, h2, ih (n + 1), List.append_assoc]
    have heq : n + 1 + as.length = n + (a :: as).length := by
      simp only [List.length_cons]
      omega
    rw [heq]

theorem ws_not_hexDigit {c : Char} (h : isJsWhitespace c = true) : isHexDigit c = false := by
  revert h
  simp only [isJsWhitespace, Bool.or_eq_true, decide_eq_true_eq, or_assoc]
  rintro (h | h | h | h | h | h | h | h | h | h) <;> subst h <;> decide

theorem jsTrimRight_decomp (s : List Char) :
    s = jsTrimRight s ++ (s.reverse.takeWhile isJsWhitespace).reverse ∧
      ∀ c ∈ (s.reverse.takeWhile isJsWhitespace).reverse, isJsWhitespace c = true := by
  constructor
  · have h0 : s.reverse.takeWhile isJsWhitespace ++ s.reverse.dropWhile isJsWhitespace
        = s.reverse := List.takeWhile_append_dropWhile _ _
    have h1 : s = (s.reverse.takeWhile isJsWhitespace ++
        s.reverse.dropWhile isJsWhitespace).reverse := by
      rw [h0, List.reverse_reverse]
    rw [List.reverse_append] at h1
    exact h1
  · intro c hc
    exact List.mem_takeWhile_imp (List.mem_reverse.mp hc)

theorem removeSpaces_jsTrimRight {s : List Char}
    (hs : ∀ c ∈ s, isHexDigit c = true ∨ c = ' ') :
    removeSpaces (jsTrimRight s) = removeSpaces s := by
  obtain ⟨hdec, hws⟩ := jsTrimRight_decomp s
  conv_rhs => rw [hdec]
  unfold removeSpaces
  rw [List.filter_append]
  have ht : ((s.reverse.takeWhile isJsWhitespace).reverse.filter fun c => c ≠ ' ') = [] := by
    rw [List.filter_eq_nil_iff]
    intro a ha
    have h1 := hws a ha
    have h2 : a ∈ s := by
      rw [hdec]
      exact List.mem_append_right _ ha
    rcases hs a h2 with h3 | h3
    · rw [ws_not_hexDigit h1] at h3
      exact absurd h3 (by simp)
    · simp [h3]
  rw [ht, List.append_nil]

theorem jsTrimLeft_cons_of_not_ws {c : Char} (x : List Char) (h : isJsWhitespace c = false) :
    jsTrimLeft (c :: x) = c :: x := by
  simp [jsTrimLeft, List.dropWhile_cons, h]

theorem jsTrimRight_append {a b : List Char} (hb : ∃ c ∈ b, isJsWhitespace c = false) :
    jsTrimRight (a ++ b) = a ++ jsTrimRight b := by
  unfold jsTrimRight
  rw [List.reverse_append, List.dropWhile_append]
  have hne : (b.reverse.dropWhile isJsWhitespace).isEmpty = false := by
    obtain ⟨c, hc, hcw⟩ := hb
    rw [List.isEmpty_eq_false_iff_exists_mem]
    by_contra hcon
    push_neg at hcon
    have := List.dropWhile_eq_nil_iff.mp (List.eq_nil_iff_forall_not_mem.mpr hcon)
    have hmem : c ∈ b.reverse := List.mem_reverse.mpr hc
    rw [this c hmem] at hcw
    exact absurd hcw (by simp)
  rw [hne]
  simp only [Bool.false_eq_true, if_false, List.reverse_append, List.reverse_reverse]

theorem mem_jsTrimRight {c : Char} {s : List Char} (h : c ∈ jsTrimRight s) : c ∈ s := by
  obtain ⟨hdec, _⟩ := jsTrimRight_decomp s
  rw [hdec]
  exact List.mem_append_left _ h

theorem removeSpaces_idem (s : List Char) : removeSpaces (removeSpaces s) = removeSpaces s := by
  unfold removeSpaces
  rw [List.filter_filter]
  simp

theorem startsWithChars_mem {pat s : List Char} :
    startsWithChars pat s = true → ∀ c ∈ pat, c ∈ s := by
  induction pat generalizing s with
  | nil => simp
  | cons p ps ih =>
    cases s with
    | nil => intro h; simp [startsWithChars] at h
    | cons a as =>
      intro h c hc
      simp only [startsWithChars, Bool.and_eq_true, beq_iff_eq] at h
      rcases List.mem_cons.mp hc with h1 | h1
      · rw [h1, h.1]
        exact List.mem_cons_self _ _
      · exact List.mem_cons_of_mem _ (ih h.2 c h1)

theorem startsWithChars_append_self (p x : List Char) : startsWithChars p (p ++ x) = true := by
  induction p with
  | nil => rfl
  | cons a ps ih => simp [startsWithChars, ih]

theorem splitGo_no_sep {s : List Char} (hY : 'Y' ∉ s) :
    splitGo " BY ".toList 0 s = [s] := by
  induction s with
  | nil => rfl
  | cons c cs ih =>
    have hsw : startsWithChars " BY ".toList (c :: cs) = false := by
      by_contra hcon
      rw [Bool.not_eq_false] at hcon
      exact hY (startsWithChars_mem hcon 'Y' (by decide))
    have hcs : 'Y' ∉ cs := fun h => hY (List.mem_cons_of_mem _ h)
    simp only [splitGo, hsw, Bool.and_false, Bool.false_eq_true, if_false, ih hcs]

theorem splitGo_wellFormed {rseg : List Char} (hr : 'Y' ∉ rseg) :
    ∀ {fseg : List Char}, 'Y' ∉ fseg →
      splitGo " BY ".toList 0 (fseg ++ (" BY ".toList ++ rseg)) = [fseg, rseg] := by
  intro fseg
  induction fseg with
  | nil =>
    intro _
    rw [List.nil_append,
      show (" BY ".toList ++ rseg) = ' ' :: (['B', 'Y', ' '] ++ rseg) from rfl]
    have h2 : startsWithChars " BY ".toList (' ' :: (['B', 'Y', ' '] ++ rseg)) = true :=
      startsWithChars_append_self " BY ".toList rseg
    have hsw : (decide (" BY ".toList ≠ []) &&
        startsWithChars " BY ".toList (' ' :: (['B', 'Y', ' '] ++ rseg))) = true := by
      rw [h2]
      decide
    simp only [splitGo, hsw, if_true]
    rw [show ([] : List Char).append rseg = rseg from rfl, splitGo_no_sep hr]
  | cons c cs ih =>
    intro hf
    have hf2 : 'Y' ∉ cs := fun h => hf (List.mem_cons_of_mem _ h)
    have hsw : startsWithChars " BY ".toList (c :: (cs ++ (" BY ".toList ++ rseg))) = false := by
      rw [show " BY ".toList = [' ', 'B', 'Y', ' '] from rfl]
      rcases cs with _ | ⟨d, _ | ⟨e, cs2⟩⟩
      · simp [startsWithChars]
      · simp [startsWithChars]
      · by_cases he : e = 'Y'
        · subst he
          exact absurd (by simp : 'Y' ∈ c :: d :: 'Y' :: cs2) hf
        · simp [startsWithChars, Ne.symm he]
    rw [show ((c :: cs) ++ (" BY ".toList ++ rseg)) = c :: (cs ++ (" BY ".toList ++ rseg))
      from rfl]
    simp only [splitGo, hsw, Bool.and_false, Bool.false_eq_true, if_false, ih hf2]

theorem parseLine_split (n : Nat) (fseg rseg : List Char)
    (hf : ∀ c ∈ fseg, isHexDigit c = true ∨ c = ' ')
    (hr : ∀ c ∈ rseg, isHexDigit c = true ∨ c = ' ')
    (hrne : removeSpaces rseg ≠ []) :
    parseLine n ("REPLACEALL ".toList ++ fseg ++ " BY ".toList ++ rseg) =
      (if removeSpaces fseg = [] || removeSpaces rseg = [] then none
       else
        match hexToBytes (removeSpaces fseg), hexToBytes (removeSpaces rseg) with
        | some findBytes, some replaceBytes =>
          if findBytes.length = replaceBytes.length then
            some ⟨findBytes, replaceBytes, n⟩
          else none
        | _, _ => none) := by
  have hex1 : ∃ c ∈ rseg, c ≠ ' ' := by
    by_contra hcon
    push_neg at hcon
    apply hrne
    rw [removeSpaces, List.filter_eq_nil_iff]
    intro a ha
    simp [hcon a ha]
  obtain ⟨c0, hc0m, hc0⟩ := hex1
  have hc0hex : isHexDigit c0 = true := by
    rcases hr c0 hc0m with h | h
    · exact h
    · exact absurd h hc0
  have hexists : ∃ c ∈ rseg, isJsWhitespace c = false := by
    refine ⟨c0, hc0m, ?_⟩
    by_contra hcon
    rw [Bool.not_eq_false] at hcon
    rw [ws_not_hexDigit hcon] at hc0hex
    exact absurd hc0hex (by simp)
  have hYf : 'Y' ∉ fseg := by
    intro hmem
    rcases hf 'Y' hmem with h | h
    · exact absurd h (by decide)
    · exact absurd h (by decide)
  have hYr : 'Y' ∉ jsTrimRight rseg := by
    intro hmem
    rcases hr 'Y' (mem_jsTrimRight hmem) with h | h
    · exact absurd h (by decide)
    · exact absurd h (by decide)
  have hL : jsTrimLeft ("REPLACEALL ".toList ++ fseg ++ " BY ".toList ++ rseg) =
      "REPLACEALL ".toList ++ fseg ++ " BY ".toList ++ rseg :=
    jsTrimLeft_cons_of_not_ws _ (by decide)
  have htrim : jsTrim ("REPLACEALL ".toList ++ fseg ++ " BY ".toList ++ rseg) =
      "REPLACEALL ".toList ++ (fseg ++ (" BY ".toList ++ jsTrimRight rseg)) := by
    unfold jsTrim
    rw [hL, jsTrimRight_append hexists, List.append_assoc, List.append_assoc]
  simp only [parseLine, htrim, startsWithChars_append_self, if_true, List.drop_left]
  rw [show splitOnSep " BY ".toList (fseg ++ (" BY ".toList ++ jsTrimRight rseg)) =
    splitGo " BY ".toList 0 (fseg ++ (" BY ".toList ++ jsTrimRight rseg)) from rfl]
  rw [splitGo_wellFormed hYr hYf]
  simp only [removeSpaces_jsTrimRight hr]

theorem parseLine_wellFormed (n : Nat) (fseg rseg : List Char)
    (hf : ∀ c ∈ fseg, isHexDigit c = true ∨ c = ' ')
    (hr : ∀ c ∈ rseg, isHexDigit c = true ∨ c = ' ')
    (hfne : removeSpaces fseg ≠ []) (hrne : removeSpaces rseg ≠ [])
    (hfeven : (removeSpaces fseg).length % 2 = 0)
    (hreven : (removeSpaces rseg).length % 2 = 0)
    (hlen : (decodePairs (removeSpaces fseg)).length =
      (decodePairs (removeSpaces rseg)).length) :
    parseLine n ("REPLACEALL ".toList ++ fseg ++ " BY ".toList ++ rseg) =
      some ⟨decodePairs (removeSpaces fseg), decodePairs (removeSpaces rseg), n⟩ := by
  rw [parseLine_split n fseg rseg hf hr hrne]
  rw [if_neg (by simp [hfne, hrne])]
  have h1 : hexToBytes (removeSpaces fseg) = some (decodePairs (removeSpaces fseg)) := by
    unfold hexToBytes
    rw [removeSpaces_idem]
    rw [if_neg (by omega)]
  have h2 : hexToBytes (removeSpaces rseg) = some (decodePairs (removeSpaces rseg)) := by
    unfold hexToBytes
    rw [removeSpaces_idem]
    rw [if_neg (by omega)]
  rw [h1, h2]
  simp only [hlen, if_true]

theorem parseLine_oddHex (n : Nat) (fseg rseg : List Char)
    (hf : ∀ c ∈ fseg, isHexDigit c = true ∨ c = ' ')
    (hr : ∀ c ∈ rseg, isHexDigit c = true ∨ c = ' ')
    (hrne : removeSpaces rseg ≠ [])
    (hodd : (removeSpaces fseg).length % 2 = 1 ∨ (removeSpaces rseg).length % 2 = 1) :
    parseLine n ("REPLACEALL ".toList ++ fseg ++ " BY ".toList ++ rseg) = none := by
  rw [parseLine_split n fseg rseg hf hr hrne]
  by_cases hfe : removeSpaces fseg = []
  · simp [hfe]
  · rw [if_neg (by simp [hfe, hrne])]
    rcases hodd with hodd | hodd
    · have h1 : hexToBytes (removeSpaces fseg) = none := by
        unfold hexToBytes
        rw [removeSpaces_idem]
        rw [if_pos (by omega)]
      rw [h1]
    · have h2 : hexToBytes (removeSpaces rseg) = none := by
        unfold hexToBytes
        rw [removeSpaces_idem]
        rw [if_pos (by omega)]
      rw [h2]
      cases hexToBytes (removeSpaces fseg) <;> rfl

/-! ### Claim theorems -/

/-- C1: every rule in the RuleSet returned by `parseString` has `find` and
`replace` byte sequences of equal length (lines whose decoded lengths
differ are discarded), and for every input buffer and RuleSet, a buffer
returned by `applyToBuffer` has the same length as the input buffer. -/
theorem spec_C1 :
    (∀ (content : List Char) (r : ReplacementRule), r ∈ parseString content →
      r.find.length = r.replace.length) ∧
    (∀ (buf : List Nat) (rules : List ReplacementRule) (out : List Nat),
      applyToBuffer buf rules = some out → out.length = buf.length) := by
  constructor
  · intro content r h
    exact mem_parseLines h
  · intro buf rules out h
    rw [applyToBuffer_eq_some] at h
    simp only [Option.some.injEq] at h
    rw [← h]
    exact applyRulesTrace_length rules buf

/-- Witness for C1: the rule parsed from `REPLACEALL 41 BY 42` has equal
lengths, and patching `[0x41, 0x41]` with `41 -> 42` preserves the length. -/
theorem spec_C1_witness :
    (⟨[0x41], [0x42], 1⟩ : ReplacementRule).find.length =
      (⟨[0x41], [0x42], 1⟩ : ReplacementRule).replace.length ∧
    ([0x42, 0x42] : List Nat).length = ([0x41, 0x41] : List Nat).length :=
  ⟨spec_C1.1 "REPLACEALL 41 BY 42".toList ⟨[0x41], [0x42], 1⟩ (by decide),
   spec_C1.2 [0x41, 0x41] [⟨[0x41, 0x41], [0x42, 0x42], 1⟩] [0x42, 0x42] (by decide)⟩

/-- C2: each rule's pass replaces occurrences non-overlappingly, left to
right: every replaced offset is at or after the cursor, and consecutive
offsets are at least `replace.length` apart, so replacement bytes are never
rescanned for the same rule; concretely, find=AA replace=BB on AAAA gives
BBBB via exactly the two matches at offsets 0 and 2. -/
theorem spec_C2 :
    (∀ (find repl : List Nat) (fuel : Nat) (buf : List Nat) (start : Nat),
      nonOverlapFrom repl.length start (applyRuleFuel find repl fuel buf start).2 = true) ∧
    applyRulesTrace [0x41, 0x41, 0x41, 0x41] [⟨[0x41, 0x41], [0x42, 0x42], 1⟩] =
      ([0x42, 0x42, 0x42, 0x42], [(2, [0, 2])]) ∧
    applyToBuffer [0x41, 0x41, 0x41, 0x41] [⟨[0x41, 0x41], [0x42, 0x42], 1⟩] =
      some [0x42, 0x42, 0x42, 0x42] :=
  ⟨fun find repl fuel buf start => nonOverlapFrom_applyRuleFuel find repl fuel buf start,
   by decide, by decide⟩

/-- C3 counterexample: the single rule find=[1,2], replace=[2,1] satisfies
find ≠ replace (and the cross-rule condition vacuously), yet applying the
RuleSet twice to [1,2,2] differs from applying it once: the first pass
gives [2,1,2] (match at 0, cursor skips to 2), and a second pass matches at
offset 1, giving [2,2,1]. -/
theorem spec_C3_counterexample :
    ([1, 2] : List Nat) ≠ [2, 1] ∧
    applyToBuffer [1, 2, 2] [⟨[1, 2], [2, 1], 1⟩] = some [2, 1, 2] ∧
    applyToBuffer [2, 1, 2] [⟨[1, 2], [2, 1], 1⟩] = some [2, 2, 1] ∧
    ([2, 2, 1] : List Nat) ≠ [2, 1, 2] := by decide

/-- C3 (amended): for any buffer in which no rule's find sequence occurs,
`applyToBuffer` is a no-op — it returns the buffer unchanged with zero
matches; consequently applying a RuleSet twice equals applying it once
whenever no rule's find occurs in the once-patched output. The claim's
original side conditions (find ≠ replace, and no rule's replace equal to a
later rule's find) do not suffice for idempotence, because a replacement
can create a fresh occurrence of the same rule's find spanning bytes the
cursor already passed. -/
theorem spec_C3 :
    (∀ (buf : List Nat) (rules : List ReplacementRule),
      (∀ r ∈ rules, findSubarray buf r.find 0 = none) →
      applyToBuffer buf rules = some buf ∧ totalReplacedCount buf rules = 0) ∧
    (∀ (buf out : List Nat) (rules : List ReplacementRule),
      applyToBuffer buf rules = some out →
      (∀ r ∈ rules, findSubarray out r.find 0 = none) →
      applyToBuffer out rules = some out) := by
  have key : ∀ (buf : List Nat) (rules : List ReplacementRule),
      (∀ r ∈ rules, findSubarray buf r.find 0 = none) →
      applyToBuffer buf rules = some buf ∧ totalReplacedCount buf rules = 0 := by
    intro buf rules h
    have htr := applyRulesTrace_no_match rules buf h
    constructor
    · rw [applyToBuffer_eq_some, htr]
    · unfold totalReplacedCount
      rw [htr]
      apply List.sum_eq_zero
      intro x hx
      simp only [List.map_map, List.mem_map, Function.comp] at hx
      obtain ⟨r, _, hrx⟩ := hx
      simp [← hrx]
  exact ⟨key, fun buf out rules _ h => (key out rules h).1⟩

/-- Witness for C3 at concrete inputs with no occurrences. -/
theorem spec_C3_witness :
    (applyToBuffer [5] [⟨[7], [8], 1⟩] = some [5] ∧
      totalReplacedCount [5] [⟨[7], [8], 1⟩] = 0) ∧
    applyToBuffer [9] [⟨[7], [8], 1⟩] = some [9] :=
  ⟨spec_C3.1 [5] [⟨[7], [8], 1⟩] (by decide),
   spec_C3.2 [9] [9] [⟨[7], [8], 1⟩] (by decide) (by decide)⟩

/-- C4 counterexample: the line `REPLACEALL ZZ BY 00` has a find segment
made of non-hex characters, yet the parser does not produce zero rules for
it: `Number.parseInt("ZZ", 16)` is NaN, which the `Uint8Array` store turns
into byte 0, so the line yields the rule find=[0], replace=[0]. -/
theorem spec_C4_counterexample :
    parseString "REPLACEALL ZZ BY 00".toList = [⟨[0], [0], 1⟩] ∧
    parseString "REPLACEALL ZZ BY 00".toList ≠ [] := by decide

/-- C4 (amended): a script line whose find or replace hex segment has odd
length after removing interior spaces yields zero rules for that line, and
the parser continues with the subsequent lines (the decode failure never
aborts the parse). A non-hex character by itself does not discard the
line: its two-character group decodes via `parseInt` to NaN and is stored
as byte 0, see the counterexample. -/
theorem spec_C4 (content : List Char) (pre post : List (List Char)) (fseg rseg : List Char)
    (hsplit : splitLines content =
      pre ++ ("REPLACEALL ".toList ++ fseg ++ " BY ".toList ++ rseg) :: post)
    (hf : ∀ c ∈ fseg, isHexDigit c = true ∨ c = ' ')
    (hr : ∀ c ∈ rseg, isHexDigit c = true ∨ c = ' ')
    (hrne : removeSpaces rseg ≠ [])
    (hodd : (removeSpaces fseg).length % 2 = 1 ∨ (removeSpaces rseg).length % 2 = 1) :
    parseString content = parseLines 1 pre ++ parseLines (pre.length + 2) post := by
  unfold parseString
  rw [hsplit, parseLines_append]
  have hstep : parseLines (1 + pre.length)
      (("REPLACEALL ".toList ++ fseg ++ " BY ".toList ++ rseg) :: post) =
      parseLines (1 + pre.length + 1) post := by
    show (parseLine (1 + pre.length) _).toList ++ _ = _
    rw [parseLine_oddHex _ _ _ hf hr hrne hodd]
    rfl
  rw [hstep]
  have h2 : 1 + pre.length + 1 = pre.length + 2 := by omega
  rw [h2]

/-- Witness for C4: an odd-length find segment (414) is skipped while the
following well-formed line is still parsed. -/
theorem spec_C4_witness :
    parseString "REPLACEALL 414 BY 424\nREPLACEALL 41 BY 42".toList =
      parseLines 1 [] ++ parseLines 2 ["REPLACEALL 41 BY 42".toList] :=
  spec_C4 "REPLACEALL 414 BY 424\nREPLACEALL 41 BY 42".toList [] ["REPLACEALL 41 BY 42".toList]
    "414".toList "424".toList (by decide) (by decide) (by decide) (by decide) (by decide)

/-- C5: rules are applied strictly in RuleSet order and each later rule
scans the buffer as already modified by the earlier rules: the buffer
produced by r :: rs is the result of running rs on the buffer produced by
r; concretely, XY --(XY->AB)--> AB --(AB->CD)--> CD. -/
theorem spec_C5 :
    (∀ (buf : List Nat) (r : ReplacementRule) (rs : List ReplacementRule),
      (applyRulesTrace buf (r :: rs)).1 = (applyRulesTrace (applyRule buf r).1 rs).1) ∧
    applyToBuffer [0x58, 0x59]
      [⟨[0x58, 0x59], [0x41, 0x42], 1⟩, ⟨[0x41, 0x42], [0x43, 0x44], 2⟩] =
      some [0x43, 0x44] :=
  ⟨fun buf r rs => rfl, by decide⟩

/-- C6: a script line `REPLACEALL <hex> BY <hex>` with well-formed hex
segments of equal decoded lengths yields exactly one rule, whose find and
replace are the decoded bytes of the two segments and whose lineNumber is
the line's 1-based index counted over all lines of the script, including
skipped ones. -/
theorem spec_C6 (content : List Char) (pre post : List (List Char)) (fseg rseg : List Char)
    (hsplit : splitLines content =
      pre ++ ("REPLACEALL ".toList ++ fseg ++ " BY ".toList ++ rseg) :: post)
    (hf : ∀ c ∈ fseg, isHexDigit c = true ∨ c = ' ')
    (hr : ∀ c ∈ rseg, isHexDigit c = true ∨ c = ' ')
    (hfne : removeSpaces fseg ≠ []) (hrne : removeSpaces rseg ≠ [])
    (hfeven : (removeSpaces fseg).length % 2 = 0)
    (hreven : (removeSpaces rseg).length % 2 = 0)
    (hlen : (decodePairs (removeSpaces fseg)).length =
      (decodePairs (removeSpaces rseg)).length) :
    parseString content = parseLines 1 pre ++
      (⟨decodePairs (removeSpaces fseg), decodePairs (removeSpaces rseg),
        pre.length + 1⟩ : ReplacementRule) ::
      parseLines (pre.length + 2) post := by
  unfold parseString
  rw [hsplit, parseLines_append]
  have hline := parseLine_wellFormed (1 + pre.length) fseg rseg hf hr hfne hrne
    hfeven hreven hlen
  have hstep : parseLines (1 + pre.length)
      (("REPLACEALL ".toList ++ fseg ++ " BY ".toList ++ rseg) :: post) =
      (⟨decodePairs (removeSpaces fseg), decodePairs (removeSpaces rseg),
        1 + pre.length⟩ : ReplacementRule) :: parseLines (1 + pre.length + 1) post := by
    show (parseLine (1 + pre.length) _).toList ++ _ = _
    rw [hline]
    rfl
  rw [hstep]
  have h2 : 1 + pre.length + 1 = pre.length + 2 := by omega
  have h1 : 1 + pre.length = pre.length + 1 := by omega
  rw [h2, h1]

/-- Witness for C6: line 2 of a three-line script parses to the decoded
rule with lineNumber 2, with the surrounding junk lines skipped. -/
theorem spec_C6_witness :
    parseString "junk\nREPLACEALL 41 42 BY 43 44\njunk2".toList =
      parseLines 1 ["junk".toList] ++
      (⟨[0x41, 0x42], [0x43, 0x44], 2⟩ : ReplacementRule) ::
      parseLines 3 ["junk2".toList] :=
  spec_C6 "junk\nREPLACEALL 41 42 BY 43 44\njunk2".toList ["junk".toList] ["junk2".toList]
    "41 42".toList "43 44".toList (by decide) (by decide) (by decide) (by decide)
    (by decide) (by decide) (by decide) (by decide)

/-- C7: for every buffer and every rule set satisfying the parser's
length-match invariant, `applyToBuffer` returns a buffer and never the
fatal null signal: equal-length in-place overwrites cannot resize the
buffer, so the length-changed branch is unreachable. -/
theorem spec_C7 (buf : List Nat) (rules : List ReplacementRule)
    (_hinv : ∀ r ∈ rules, r.find.length = r.replace.length) :
    ∃ out, applyToBuffer buf rules = some out :=
  ⟨(applyRulesTrace buf rules).1, applyToBuffer_eq_some buf rules⟩

/-- Witness for C7 at a concrete buffer and rule. -/
theorem spec_C7_witness :
    ∃ out, applyToBuffer [0x41] [⟨[0x41], [0x42], 1⟩] = some out :=
  spec_C7 [0x41] [⟨[0x41], [0x42], 1⟩] (by decide)

/-- C8: parsing and patching always terminate within bounds: the parser
yields at most one rule per script line, and for rules satisfying the
RuleSet data-model invariant (non-empty find of the same length as
replace), each rule's scan cursor strictly advances and is bounded by the
buffer length, so the per-rule loop converges within buf.length + 1
iterations — any extra iteration budget yields the same final buffer. -/
theorem spec_C8 :
    (∀ content : List Char, (parseString content).length ≤ (splitLines content).length) ∧
    (∀ (buf : List Nat) (rules : List ReplacementRule) (extra : Nat),
      (∀ r ∈ rules, r.find ≠ [] ∧ r.find.length = r.replace.length) →
      applyRulesGas (buf.length + 1 + extra) buf rules = (applyRulesTrace buf rules).1) :=
  ⟨fun content => parseLines_length_le 1 (splitLines content),
   fun buf rules extra h => applyRulesGas_eq extra rules buf h⟩

/-- Witness for C8 at a concrete script, buffer and rule. -/
theorem spec_C8_witness :
    (parseString "REPLACEALL 41 BY 42".toList).length ≤
      (splitLines "REPLACEALL 41 BY 42".toList).length ∧
    applyRulesGas (([0x41, 0x41] : List Nat).length + 1 + 5) [0x41, 0x41]
      [⟨[0x41], [0x42], 1⟩] = (applyRulesTrace [0x41, 0x41] [⟨[0x41], [0x42], 1⟩]).1 :=
  ⟨spec_C8.1 "REPLACEALL 41 BY 42".toList,
   spec_C8.2 [0x41, 0x41] [⟨[0x41], [0x42], 1⟩] 5 (by decide)⟩

/-- C9: `applyToFile` returns a success boolean with read-then-check-then-
write ordering: on any failure the on-disk contents are unchanged; a fatal
(null) `applyToBuffer` result yields failure with no write; and on success
with a non-empty rule set the patched buffer is exactly what is written
back. -/
theorem spec_C9 (disk : Option (List Nat)) (rules : List ReplacementRule) :
    ((applyToFile disk rules).1 = false → (applyToFile disk rules).2 = disk) ∧
    (∀ c, disk = some c → applyToBuffer c rules = none →
      applyToFile disk rules = (false, disk)) ∧
    (∀ c p, disk = some c → rules ≠ [] → applyToBuffer c rules = some p →
      applyToFile disk rules = (true, some p)) := by
  by_cases hempty : rules.isEmpty
  · have h : applyToFile disk rules = (true, disk) := by
      simp [applyToFile, hempty]
    refine ⟨fun hfalse => ?_, fun c hc hnone => ?_, fun c p hc hne hsome => ?_⟩
    · rw [h] at hfalse
      simp at hfalse
    · rw [List.isEmpty_iff.mp hempty] at hnone
      simp [applyToBuffer] at hnone
    · exact absurd (List.isEmpty_iff.mp hempty) hne
  · cases disk with
    | none =>
      have h : applyToFile none rules = (false, none) := by
        simp [applyToFile, hempty]
      refine ⟨fun _ => by rw [h], fun c hc => ?_, fun c p hc => ?_⟩
      · cases hc
      · cases hc
    | some content =>
      cases hab : applyToBuffer content rules with
      | none =>
        have h : applyToFile (some content) rules = (false, some content) := by
          simp [applyToFile, hempty, hab]
        refine ⟨fun _ => by rw [h], fun c hc hn => ?_, fun c p hc hne hsome => ?_⟩
        · cases hc
          rw [h]
        · cases hc
          rw [hab] at hsome
          cases hsome
      | some patched =>
        have h : applyToFile (some content) rules = (true, some patched) := by
          simp [applyToFile, hempty, hab]
        refine ⟨fun hfalse => ?_, fun c hc hn => ?_, fun c p hc hne hsome => ?_⟩
        · rw [h] at hfalse
          simp at hfalse
        · cases hc
          rw [hab] at hn
          cases hn
        · cases hc
          rw [hab] at hsome
          cases hsome
          rw [h]

/-- Witness for C9: a successful patch is written back. -/
theorem spec_C9_witness :
    applyToFile (some [0x41]) [⟨[0x41], [0x42], 1⟩] = (true, some [0x42]) :=
  (spec_C9 (some [0x41]) [⟨[0x41], [0x42], 1⟩]).2.2 [0x41] [0x42] rfl
    (by decide) (by decide)

/-- C10: frame property — every byte position that lies outside every
replaced interval [o, o + replace.length) recorded for any rule keeps the
value it had when `applyToBuffer` was invoked: the engine writes only to
matched regions. -/
theorem spec_C10 (buf : List Nat) (rules : List ReplacementRule) (out : List Nat) (j : Nat)
    (hout : applyToBuffer buf rules = some out)
    (hj : ∀ w ∈ (applyRulesTrace buf rules).2, ∀ o ∈ w.2, ¬(o ≤ j ∧ j < o + w.1)) :
    out[j]? = buf[j]? := by
  rw [applyToBuffer_eq_some] at hout
  simp only [Option.some.injEq] at hout
  rw [← hout]
  exact applyRulesTrace_frame rules buf j hj

/-- Witness for C10: patching [0x41, 0x41, 0x42] with 41 -> 43 rewrites
offsets 0 and 1 only; position 2 keeps its value. -/
theorem spec_C10_witness :
    ([0x43, 0x43, 0x42] : List Nat)[2]? = ([0x41, 0x41, 0x42] : List Nat)[2]? :=
  spec_C10 [0x41, 0x41, 0x42] [⟨[0x41], [0x43], 1⟩] [0x43, 0x43, 0x42] 2
    (by decide) (by decide)

end XscPatcher
